import Mathlib

/-!
Verification development for `stripblankimports` (src/main.go).

The program parses a Go file, locates the parenthesised import block,
and removes blank lines between consecutive members (import specs and
comment groups) of that block by mutating the `token.File` line table.

Shallow embedding conventions:
* A `token.File`'s line table (`f.lines` in Go) is a `List Nat` of line-start
  byte offsets, strictly increasing, first entry `0`.  The single parsed file
  has base 1 (Go: `fset.File(1)`), so `token.Pos p` corresponds to offset
  `p - 1` and `File.Line(p)` counts the line starts `s` with `s + 1 ≤ p`.
* `token.File.MergeLine(line)` removes the entry at index `line`
  (Go panics unless `1 ≤ line < len(lines)`; the panic-free domain is captured
  by `mergeLineOK`, and every theorem below that applies `MergeLine` proves or
  assumes validity).
* `ast.ImportSpec` and `ast.CommentGroup` are both consumed through their
  `Pos()`/`End()` methods only; `Span` models that interface.
-/

namespace StripBlank

/-- A positioned node: what `squashBlankImportLines` sees of an
`ast.ImportSpec` or `ast.CommentGroup` — its `Pos()` (start, `pos`)
and `End()` (one past the last character, `endP`), both `token.Pos`. -/
structure Span where
  pos : Nat
  endP : Nat
deriving DecidableEq, Repr

/-- `token.File.Line(p)` for the file with base 1: the number of line-start
offsets `s` in the table with `s + 1 ≤ p` (Go: `searchInts(f.lines, p-base)+1`). -/
def fileLine (t : List Nat) (p : Nat) : Nat :=
  t.countP (fun s => s + 1 ≤ p)

/-- `token.File.MergeLine(line)`: deletes the line-table entry at index `line`,
making lines `line` and `line+1` contiguous.  Go additionally panics when
`line < 1` or `line ≥ len(lines)`; see `mergeLineOK`. -/
def MergeLine (t : List Nat) (line : Nat) : List Nat :=
  t.eraseIdx line

/-- The domain on which Go's `token.File.MergeLine` does not panic. -/
def mergeLineOK (t : List Nat) (line : Nat) : Prop :=
  1 ≤ line ∧ line < t.length

/-- Invariant of a `token.File` line table: strictly increasing offsets,
line 1 starting at offset 0. -/
def tableInv (t : List Nat) : Prop :=
  t.Chain' (· < ·) ∧ t.head? = some 0

/-- Executable chain check, used to give the invariants kernel-computable
`Decidable` instances. -/
def chainB {α : Type} (r : α → α → Bool) : List α → Bool
  | [] => true
  | [_] => true
  | a :: b :: rest => r a b && chainB r (b :: rest)

theorem chainB_iff {α : Type} (r : α → α → Bool) :
    ∀ l : List α, chainB r l = true ↔ l.Chain' (fun a b => r a b = true) := by
  intro l
  induction l with
  | nil => simp [chainB]
  | cons a rest ih =>
    cases rest with
    | nil => simp [chainB]
    | cons b rest2 =>
      rw [List.chain'_cons, ← ih]
      show (r a b && chainB r (b :: rest2)) = true ↔ _
      rw [Bool.and_eq_true]

instance (t : List Nat) : Decidable (tableInv t) :=
  decidable_of_iff (chainB (fun a b => decide (a < b)) t = true ∧ t.head? = some 0)
    (by
      unfold tableInv
      constructor
      · rintro ⟨h1, h2⟩
        refine ⟨List.Chain'.imp ?_ ((chainB_iff _ t).mp h1), h2⟩
        intro a b hab
        simpa using hab
      · rintro ⟨h1, h2⟩
        refine ⟨(chainB_iff _ t).mpr (List.Chain'.imp ?_ h1), h2⟩
        intro a b hab
        simpa using hab)

/-- Which cursor `chooseNext` picks. -/
inductive Side where
  | impSide
  | cmSide
deriving DecidableEq, Repr

/-- The selection made by `chooseNext` (src/main.go:324-344): comment side if
the import cursor is exhausted, import side if the comment cursor is
exhausted, otherwise import side exactly when its head has the strictly
smaller `Pos()`. -/
def chooseNextSide (imp cm : List Span) (impIdx cmIdx : Nat) : Side :=
  if imp.length ≤ impIdx then Side.cmSide
  else if cm.length ≤ cmIdx then Side.impSide
  else if (imp.getD impIdx ⟨0, 0⟩).pos < (cm.getD cmIdx ⟨0, 0⟩).pos then Side.impSide
  else Side.cmSide

/-- The node returned by `chooseNext`.  Go indexes `imp[*impIdx]` /
`cm[*cmIdx]`; indexing a cursor that is out of range (possible in Go only
when both cursors are exhausted, which the callers' loop guard excludes)
is modelled by the dummy `⟨0,0⟩` of `getD`. -/
def chooseNextNode (imp cm : List Span) (impIdx cmIdx : Nat) : Span :=
  match chooseNextSide imp cm impIdx cmIdx with
  | Side.impSide => imp.getD impIdx ⟨0, 0⟩
  | Side.cmSide => cm.getD cmIdx ⟨0, 0⟩

theorem side_imp_lt (imp cm : List Span) (i j : Nat)
    (h : chooseNextSide imp cm i j = Side.impSide) : i < imp.length := by
  unfold chooseNextSide at h
  split_ifs at h <;> omega

theorem side_cm_lt (imp cm : List Span) (i j : Nat)
    (h : chooseNextSide imp cm i j = Side.cmSide)
    (hguard : i < imp.length ∨ j < cm.length) : j < cm.length := by
  unfold chooseNextSide at h
  split_ifs at h <;> omega

theorem side_not_imp (imp cm : List Span) (i j : Nat)
    (h : ¬ chooseNextSide imp cm i j = Side.impSide) :
    chooseNextSide imp cm i j = Side.cmSide := by
  cases hc : chooseNextSide imp cm i j
  · exact absurd hc h
  · rfl

/-- One pair step of the squash loop (src/main.go:305-316): look up the line
of `curr.End()` and of `next.Pos()` in the current table and call
`MergeLine(currEndLine)` exactly `nextStartLine - currEndLine - 1` times
(zero times when the difference is not positive, as in Go's `for` loop). -/
def squashStep (t : List Nat) (pr : Span × Span) : List Nat :=
  let currEndLine := fileLine t pr.1.endP
  let nextStartLine := fileLine t pr.2.pos
  (fun l => MergeLine l currEndLine)^[nextStartLine - currEndLine - 1] t

/-- The merge-two-sorted-lists loop of `squashBlankImportLines`
(src/main.go:288-317): choose `curr` (advancing that cursor), stop if both
cursors are now exhausted, choose `next` without advancing, squash the gap,
repeat.  Every iteration advances exactly one of the two cursors, so the loop
runs at most `imp.length + cm.length` iterations; the structural `fuel`
argument (always called with at least that budget, under which it never runs
out) carries that bound.  The `fset.File` lookups and the
`currFile != nextFile` panic guard (src/main.go:305-309) are modelled
separately (`fsetFile`, theorem for C10): in the single-parsed-file setting
both lookups always yield the one file, whose table is the `t` threaded
here. -/
def squashLoop (imp cm : List Span) : Nat → Nat → Nat → List Nat → List Nat
  | 0, _, _, t => t
  | fuel + 1, impIdx, cmIdx, t =>
    if impIdx < imp.length ∨ cmIdx < cm.length then
      if chooseNextSide imp cm impIdx cmIdx = Side.impSide then
        if impIdx + 1 = imp.length ∧ cmIdx = cm.length then t
        else
          squashLoop imp cm fuel (impIdx + 1) cmIdx
            (squashStep t (chooseNextNode imp cm impIdx cmIdx,
                           chooseNextNode imp cm (impIdx + 1) cmIdx))
      else
        if impIdx = imp.length ∧ cmIdx + 1 = cm.length then t
        else
          squashLoop imp cm fuel impIdx (cmIdx + 1)
            (squashStep t (chooseNextNode imp cm impIdx cmIdx,
                           chooseNextNode imp cm impIdx (cmIdx + 1)))
    else t

/-- The sequence of members chosen as `curr` by the squash loop, in order:
the merge in position order of the import and comment cursors (same fuel
discipline as `squashLoop`). -/
def walkSeq (imp cm : List Span) : Nat → Nat → Nat → List Span
  | 0, _, _ => []
  | fuel + 1, impIdx, cmIdx =>
    if impIdx < imp.length ∨ cmIdx < cm.length then
      if chooseNextSide imp cm impIdx cmIdx = Side.impSide then
        chooseNextNode imp cm impIdx cmIdx :: walkSeq imp cm fuel (impIdx + 1) cmIdx
      else
        chooseNextNode imp cm impIdx cmIdx :: walkSeq imp cm fuel impIdx (cmIdx + 1)
    else []

/-- The `(curr, next)` pairs the squash loop processes, in order (same fuel
discipline as `squashLoop`). -/
def walkPairs (imp cm : List Span) : Nat → Nat → Nat → List (Span × Span)
  | 0, _, _ => []
  | fuel + 1, impIdx, cmIdx =>
    if impIdx < imp.length ∨ cmIdx < cm.length then
      if chooseNextSide imp cm impIdx cmIdx = Side.impSide then
        if impIdx + 1 = imp.length ∧ cmIdx = cm.length then []
        else
          (chooseNextNode imp cm impIdx cmIdx, chooseNextNode imp cm (impIdx + 1) cmIdx) ::
            walkPairs imp cm fuel (impIdx + 1) cmIdx
      else
        if impIdx = imp.length ∧ cmIdx + 1 = cm.length then []
        else
          (chooseNextNode imp cm impIdx cmIdx, chooseNextNode imp cm impIdx (cmIdx + 1)) ::
            walkPairs imp cm fuel impIdx (cmIdx + 1)
    else []

/-- The consecutive pairs of a member sequence. -/
def pairsOf (ms : List Span) : List (Span × Span) :=
  ms.zip ms.tail

/-- The scan of `resliceComments` (src/main.go:250-264), iterating `i` over
the comment list: `lo`/`hi` are Go's `cmLower`/`cmUpper` with the `-1`
sentinel modelled as `none`.  Both updates happen before the
`cm[i].Pos() > posEnd` break test, and the `cmUpper` update reads the
already-updated `cmLower`, exactly as in the Go loop body. -/
def resliceLoop (posStart posEnd : Nat) :
    List Span → Nat → Option Nat → Option Nat → Option Nat × Option Nat
  | [], _, lo, hi => (lo, hi)
  | c :: rest, i, lo, hi =>
    let lo2 := if lo = none ∧ posStart < c.pos ∧ c.pos < posEnd then some i else lo
    let hi2 := if lo2 ≠ none ∧ c.pos < posEnd then some i else hi
    if posEnd < c.pos then (lo2, hi2)
    else resliceLoop posStart posEnd rest (i + 1) lo2 hi2

/-- `resliceComments` (src/main.go:250-272): restrict the file's comment
list to the entries between the import block's bounds.  Returns
`cm[cmLower : cmUpper+1]`, or the empty list when `cmLower` was never set.
(When `lo` is set, `hi` is always set as well — the same iteration that sets
`cmLower` sets `cmUpper` — so the `getD 0` default is never consulted on the
reachable states.) -/
def resliceComments (posStart posEnd : Nat) (cm : List Span) : List Span :=
  match resliceLoop posStart posEnd cm 0 none none with
  | (none, _) => []
  | (some lo, hi) => (cm.drop lo).take (hi.getD 0 + 1 - lo)

/-- `squashBlankImportLines` (src/main.go:274-318) for the single parsed
file: skip when fewer than 2 imports, reslice the comments to the block,
then run the merge walk, returning the mutated line table. -/
def squashBlankImportLines (posStart posEnd : Nat) (imp cm : List Span)
    (t : List Nat) : List Nat :=
  if imp.length < 2 then t
  else
    squashLoop imp (resliceComments posStart posEnd cm)
      (imp.length + (resliceComments posStart posEnd cm).length) 0 0 t

/-- The member sequence (imports merged with the filtered comments) that
`squashBlankImportLines posStart posEnd imp cm` walks. -/
def squashMems (posStart posEnd : Nat) (imp cm : List Span) : List Span :=
  walkSeq imp (resliceComments posStart posEnd cm)
    (imp.length + (resliceComments posStart posEnd cm).length) 0 0

/-- The data-model invariant on the walked member sequence (spec §3): members
in position order, non-overlapping (`End() ≤` next `Pos()`), every position a
real `token.Pos` (`≥ 1`, i.e. at or after the file base) with `Pos() ≤ End()`. -/
def memsOrdered (ms : List Span) : Prop :=
  ms.Chain' (fun a b => a.endP ≤ b.pos) ∧ ∀ m ∈ ms, 1 ≤ m.pos ∧ m.pos ≤ m.endP

instance (ms : List Span) : Decidable (memsOrdered ms) :=
  decidable_of_iff (chainB (fun (a b : Span) => decide (a.endP ≤ b.pos)) ms = true ∧
      ∀ m ∈ ms, 1 ≤ m.pos ∧ m.pos ≤ m.endP)
    (by
      unfold memsOrdered
      constructor
      · rintro ⟨h1, h2⟩
        refine ⟨List.Chain'.imp ?_ ((chainB_iff _ ms).mp h1), h2⟩
        intro a b hab
        simpa using hab
      · rintro ⟨h1, h2⟩
        refine ⟨(chainB_iff _ ms).mpr (List.Chain'.imp ?_ h1), h2⟩
        intro a b hab
        simpa using hab)

/-- The number of `MergeLine` calls the squash loop performs for each
successive `(curr, next)` pair, each count computed in the table as already
mutated by the earlier pairs (exactly the iteration count of the Go `for`
loop at src/main.go:314). -/
def pairCounts : List (Span × Span) → List Nat → List Nat
  | [], _ => []
  | pr :: ps, t =>
    (fileLine t pr.2.pos - fileLine t pr.1.endP - 1) :: pairCounts ps (squashStep t pr)

/-- Token kinds relevant to `findImportBounds`'s scan (src/main.go:218-247).
`OTHER` stands for every other token the Go scanner can produce (identifiers,
keywords other than `import`, comments, semicolons, ...), none of which any
branch of the loop tests. -/
inductive Tok where
  | IMPORT
  | STRING
  | LPAREN
  | RPAREN
  | OTHER
deriving DecidableEq, Repr

/-- Outcome of `findImportBounds`.  `ok start end` is the normal return,
`nonBlockImport` the `"non-block import"` error, and `noReturn` records that
the scan loop ran the token stream dry: the Go loop never tests for
`token.EOF`, and `scanner.Scanner.Scan` returns `token.EOF` forever once the
source is exhausted, a token matching no branch — so the Go function never
returns on such streams (an infinite loop, not an error). -/
inductive FindResult where
  | ok (start endPos : Nat)
  | nonBlockImport
  | noReturn
deriving DecidableEq, Repr

/-- The scan loop of `findImportBounds` (src/main.go:228-246) over the finite
stream of non-EOF tokens, with `found` and `start` as in the Go code
(`start = 0` is Go's zero `token.Pos`, meaning no `LPAREN` seen yet). -/
def findLoop : List (Nat × Tok) → Bool → Nat → FindResult
  | [], _, _ => FindResult.noReturn
  | (pos, tok) :: rest, found, start =>
    if found then
      if tok = Tok.STRING ∧ start = 0 then FindResult.nonBlockImport
      else if tok = Tok.LPAREN then findLoop rest found pos
      else if tok = Tok.RPAREN then FindResult.ok start pos
      else findLoop rest found start
    else
      findLoop rest (decide (tok = Tok.IMPORT)) start

/-- `findImportBounds` (src/main.go:218-247): find the first `IMPORT` token,
then the first `LPAREN` after it and the first `RPAREN` after that; a
`STRING` seen (after `IMPORT`) before any `LPAREN` is the
`"non-block import"` error. -/
def findImportBounds (toks : List (Nat × Tok)) : FindResult :=
  findLoop toks false 0

/-- The typed failures of the `format` pipeline that are decided inside
src/main.go (spec §7).  Parse errors and printer errors are produced by the
external `go/parser` and `go/printer` collaborators before/after the modelled
region.  `notApplicable` is the `"doesn't contain multiple imports"` error,
`nonBlockImport` the `"non-block import"` error. -/
inductive Failure where
  | notApplicable
  | nonBlockImport
deriving DecidableEq, Repr

/-- The result of `go/parser.ParseFile` as consumed by `format`
(src/main.go:184-211): the import specs and comment groups of the file (as
position spans), the token stream `findImportBounds` rescans, and the
single `token.File`'s line table. -/
structure ParsedFile where
  imports : List Span
  comments : List Span
  toks : List (Nat × Tok)
  lines : List Nat
deriving DecidableEq, Repr

/-- The post-parse stages of `format` (src/main.go:191-204): fail with
`notApplicable` when there are fewer than two imports (before the block is
ever located), propagate `findImportBounds`'s failure, otherwise squash and
hand the mutated line table to the printer.  `none` models the case in which
`findImportBounds` never returns.  The second component of a `some` result is
the line table the printer would receive (unchanged on the failure paths). -/
def formatCore (pf : ParsedFile) : Option (Except Failure Unit × List Nat) :=
  if pf.imports.length ≤ 1 then some (Except.error Failure.notApplicable, pf.lines)
  else
    match findImportBounds pf.toks with
    | FindResult.nonBlockImport => some (Except.error Failure.nonBlockImport, pf.lines)
    | FindResult.noReturn => none
    | FindResult.ok s e =>
      some (Except.ok (), squashBlankImportLines s e pf.imports pf.comments pf.lines)

/-- Modelled from the spec (§6, external collaborators `render` and `parse`,
whose Go implementations `go/printer` and `go/parser` are not part of this
repository): re-parsing the serialiser's output reproduces the same syntax
tree and token stream together with the mutated line table.  (The model keeps
byte positions unshifted; the real round trip renumbers positions by a
strictly monotone map, under which every line-number comparison below is
invariant.) -/
def reparseModel (pf : ParsedFile) (t : List Nat) : ParsedFile :=
  { pf with lines := t }

/-- A file registered in a `token.FileSet`: base position and size. -/
structure FsFile where
  base : Nat
  size : Nat
deriving DecidableEq, Repr

/-- `token.FileSet.File(p)`: the registered file whose position interval
`[base, base+size]` contains `p`, if any. -/
def fsetFile (files : List FsFile) (p : Nat) : Option FsFile :=
  files.find? (fun f => decide (f.base ≤ p ∧ p ≤ f.base + f.size))

/-! ### Line-table lemmas -/

theorem fileLine_cons (a : Nat) (t : List Nat) (p : Nat) :
    fileLine (a :: t) p = fileLine t p + if a + 1 ≤ p then 1 else 0 := by
  unfold fileLine
  rw [List.countP_cons]
  by_cases h : a + 1 ≤ p <;> simp [h]

theorem fileLine_le_length (t : List Nat) (p : Nat) : fileLine t p ≤ t.length :=
  List.countP_le_length _

theorem fileLine_mono (t : List Nat) {p q : Nat} (h : p ≤ q) :
    fileLine t p ≤ fileLine t q := by
  unfold fileLine
  refine List.countP_mono_left ?_
  intro x _ hx
  simp only [decide_eq_true_eq] at hx ⊢
  omega

theorem fileLine_eq_zero (t : List Nat) (p : Nat) (h : ∀ s ∈ t, ¬ s + 1 ≤ p) :
    fileLine t p = 0 := by
  unfold fileLine
  rw [List.countP_eq_zero]
  intro a ha
  simpa using h a ha

/-- In a strictly sorted table, index `i` is below `fileLine t q` exactly when
the entry at `i` starts a line at or before position `q`. -/
theorem fileLine_get_iff (t : List Nat) (hp : t.Pairwise (· < ·)) (q : Nat) :
    ∀ (i : Nat) (h : i < t.length), (i < fileLine t q ↔ t.get ⟨i, h⟩ + 1 ≤ q) := by
  induction t with
  | nil => intro i h; simp at h
  | cons a rest ih =>
    have ha : ∀ x ∈ rest, a < x := (List.pairwise_cons.mp hp).1
    have hp2 : rest.Pairwise (· < ·) := (List.pairwise_cons.mp hp).2
    intro i h
    cases i with
    | zero =>
      simp only [List.get]
      rw [fileLine_cons]
      by_cases hq : a + 1 ≤ q
      · simp [hq]
      · have h0 : fileLine rest q = 0 := by
          refine fileLine_eq_zero rest q ?_
          intro s hs
          have := ha s hs
          omega
        simp [hq, h0]
    | succ i =>
      simp only [List.get]
      rw [fileLine_cons]
      by_cases hq : a + 1 ≤ q
      · have := ih hp2 i (by simpa using h)
        simp only [hq, if_pos]
        omega
      · have h0 : fileLine rest q = 0 := by
          refine fileLine_eq_zero rest q ?_
          intro s hs
          have := ha s hs
          omega
        have hx := ha _ (List.get_mem rest i (by simpa using h))
        rw [if_neg hq, h0]
        omega

theorem fileLine_eraseIdx (t : List Nat) :
    ∀ (m : Nat) (h : m < t.length) (q : Nat),
      fileLine (t.eraseIdx m) q + (if t.get ⟨m, h⟩ + 1 ≤ q then 1 else 0) = fileLine t q := by
  induction t with
  | nil => intro m h; simp at h
  | cons a rest ih =>
    intro m h q
    cases m with
    | zero =>
      simp only [List.eraseIdx_cons_zero, List.get]
      rw [fileLine_cons]
    | succ m =>
      simp only [List.eraseIdx_cons_succ, List.get]
      rw [fileLine_cons, fileLine_cons]
      have := ih m (by simpa using h) q
      omega

/-- Everything `merge_one` needs to know about one valid `MergeLine` call at
index `fileLine t pc`: table invariants are preserved, the table shrinks by
the one line-start it deletes, which lies strictly between positions `pc`
and `pn`, line numbers at or below `pc` are unchanged, and line numbers at or
beyond `pn` drop by exactly one. -/
theorem merge_one (t : List Nat) (pc pn : Nat) (ht : tableInv t)
    (h1 : 1 ≤ fileLine t pc) (hlt : fileLine t pc < fileLine t pn) :
    tableInv (MergeLine t (fileLine t pc)) ∧
    (MergeLine t (fileLine t pc)).Sublist t ∧
    mergeLineOK t (fileLine t pc) ∧
    (∀ y ∈ t, y ∉ MergeLine t (fileLine t pc) → pc < y + 1 ∧ y + 1 ≤ pn) ∧
    (∀ q, q ≤ pc → fileLine (MergeLine t (fileLine t pc)) q = fileLine t q) ∧
    (∀ q, pn ≤ q → fileLine (MergeLine t (fileLine t pc)) q + 1 = fileLine t q) := by
  obtain ⟨hchain, hhead⟩ := ht
  have hpw : t.Pairwise (· < ·) := List.chain'_iff_pairwise.mp hchain
  set a := fileLine t pc with ha_def
  have ha_len : a < t.length :=
    lt_of_lt_of_le hlt (fileLine_le_length t pn)
  have hx_pn : t.get ⟨a, ha_len⟩ + 1 ≤ pn := (fileLine_get_iff t hpw pn a ha_len).mp hlt
  have hx_pc : ¬ t.get ⟨a, ha_len⟩ + 1 ≤ pc := by
    intro hcon
    exact absurd ((fileLine_get_iff t hpw pc a ha_len).mpr hcon) (lt_irrefl a)
  have herase := fileLine_eraseIdx t a ha_len
  have hsub : (MergeLine t a).Sublist t := List.eraseIdx_sublist t a
  have hpw2 : (MergeLine t a).Pairwise (· < ·) := hpw.sublist hsub
  refine ⟨⟨List.chain'_iff_pairwise.mpr hpw2, ?_⟩, hsub, ⟨h1, ha_len⟩, ?_, ?_, ?_⟩
  · -- head preserved: the erased index is ≥ 1
    obtain ⟨t0, rest, rfl⟩ : ∃ t0 rest, t = t0 :: rest := by
      cases t with
      | nil => simp at ha_len
      | cons t0 rest => exact ⟨t0, rest, rfl⟩
    have ht0 : t0 = 0 := by simpa using hhead
    obtain ⟨a2, ha2⟩ : ∃ a2, a = a2 + 1 := ⟨a - 1, by omega⟩
    simp only [MergeLine]
    rw [ha2, List.eraseIdx_cons_succ]
    simp [ht0]
  · -- the deleted entry lies strictly between pc and pn
    intro y hy hyn
    have hy_eq : y = t.get ⟨a, ha_len⟩ := by
      have hsplit := List.eraseIdx_eq_take_drop_succ t a
      rw [MergeLine, hsplit] at hyn
      have hdrop : t.drop a = t.get ⟨a, ha_len⟩ :: t.drop (a + 1) :=
        (List.drop_eq_getElem_cons ha_len).trans rfl
      conv at hy => rw [← List.take_append_drop a t]
      rw [hdrop] at hy
      rcases List.mem_append.mp hy with h' | h'
      · exact absurd (List.mem_append.mpr (Or.inl h')) hyn
      · rcases List.mem_cons.mp h' with h'' | h''
        · exact h''
        · exact absurd (List.mem_append.mpr (Or.inr h'')) hyn
    subst hy_eq
    constructor
    · omega
    · exact hx_pn
  · intro q hq
    have hnx : ¬ t.get ⟨a, ha_len⟩ + 1 ≤ q := by omega
    have h5 := herase q
    rw [if_neg hnx] at h5
    simp only [MergeLine]
    omega
  · intro q hq
    have hnx : t.get ⟨a, ha_len⟩ + 1 ≤ q := by omega
    have h5 := herase q
    rw [if_pos hnx] at h5
    simp only [MergeLine]
    omega

/-- Iterating `MergeLine` `k` times at the (fixed) line of `pc`'s end, as the
squash loop does: all calls are valid, invariants are preserved, exactly `k`
line-starts are deleted, each strictly between `pc` and `pn`, line numbers at
or below `pc` are unchanged and line numbers at or beyond `pn` drop by `k`. -/
theorem merge_iterate (pc pn : Nat) :
    ∀ (k : Nat) (t : List Nat), tableInv t →
      1 ≤ fileLine t pc → fileLine t pc + k ≤ fileLine t pn →
      tableInv ((fun l => MergeLine l (fileLine t pc))^[k] t) ∧
      ((fun l => MergeLine l (fileLine t pc))^[k] t).Sublist t ∧
      (∀ y ∈ t, y ∉ (fun l => MergeLine l (fileLine t pc))^[k] t →
        pc < y + 1 ∧ y + 1 ≤ pn) ∧
      (∀ q, q ≤ pc →
        fileLine ((fun l => MergeLine l (fileLine t pc))^[k] t) q = fileLine t q) ∧
      (∀ q, pn ≤ q →
        fileLine ((fun l => MergeLine l (fileLine t pc))^[k] t) q + k = fileLine t q) := by
  intro k
  induction k with
  | zero =>
    intro t ht h1 hk
    exact ⟨ht, List.Sublist.refl t, fun y hy hyn => absurd hy hyn,
      fun q _ => rfl, fun q _ => rfl⟩
  | succ k ih =>
    intro t ht h1 hk
    have hlt : fileLine t pc < fileLine t pn := by omega
    obtain ⟨ht1, hsub1, hok1, hdel1, hlow1, hhigh1⟩ := merge_one t pc pn ht h1 hlt
    set t1 := MergeLine t (fileLine t pc) with ht1_def
    have hpc1 : fileLine t1 pc = fileLine t pc := hlow1 pc le_rfl
    have hpn1 : fileLine t1 pn + 1 = fileLine t pn := hhigh1 pn le_rfl
    have hstep : (fun l => MergeLine l (fileLine t pc))^[k + 1] t =
        (fun l => MergeLine l (fileLine t1 pc))^[k] t1 := by
      rw [Function.iterate_succ_apply, hpc1]
    obtain ⟨ht2, hsub2, hdel2, hlow2, hhigh2⟩ :=
      ih t1 ht1 (by omega) (by omega)
    rw [hstep]
    refine ⟨ht2, hsub2.trans hsub1, ?_, ?_, ?_⟩
    · intro y hy hyn
      by_cases hy1 : y ∈ t1
      · exact hdel2 y hy1 hyn
      · exact hdel1 y hy hy1
    · intro q hq
      rw [hlow2 q hq, hlow1 q hq]
    · intro q hq
      have := hhigh2 q hq
      have := hhigh1 q hq
      omega

theorem squashStep_eq (t : List Nat) (c n : Span) :
    squashStep t (c, n) =
      (fun l => MergeLine l (fileLine t c.endP))^[fileLine t n.pos - fileLine t c.endP - 1] t :=
  rfl

theorem fileLine_ge_one (t : List Nat) (ht : tableInv t) (p : Nat) (hp : 1 ≤ p) :
    1 ≤ fileLine t p := by
  obtain ⟨-, hhead⟩ := ht
  obtain ⟨t0, rest, rfl⟩ : ∃ t0 rest, t = t0 :: rest := by
    cases t with
    | nil => simp at hhead
    | cons t0 rest => exact ⟨t0, rest, rfl⟩
  have ht0 : t0 = 0 := by simpa using hhead
  rw [fileLine_cons, ht0, if_pos (by omega)]
  omega

/-- What one `squashStep` (the per-pair merge loop of the squasher) does to
the table, given the data-model invariants on the pair. -/
theorem step_spec (t : List Nat) (c n : Span) (ht : tableInv t)
    (hc1 : 1 ≤ c.pos) (hc2 : c.pos ≤ c.endP) (hcn : c.endP ≤ n.pos) :
    tableInv (squashStep t (c, n)) ∧
    (squashStep t (c, n)).Sublist t ∧
    (∀ y ∈ t, y ∉ squashStep t (c, n) → c.endP < y + 1 ∧ y + 1 ≤ n.pos) ∧
    (∀ q, q ≤ c.endP → fileLine (squashStep t (c, n)) q = fileLine t q) ∧
    (∀ q, n.pos ≤ q →
      fileLine (squashStep t (c, n)) q + (fileLine t n.pos - fileLine t c.endP - 1) =
        fileLine t q) ∧
    fileLine (squashStep t (c, n)) n.pos =
      fileLine (squashStep t (c, n)) c.endP +
        min (fileLine t n.pos - fileLine t c.endP) 1 := by
  have hle : fileLine t c.endP ≤ fileLine t n.pos := fileLine_mono t hcn
  by_cases hk : fileLine t n.pos ≤ fileLine t c.endP + 1
  · -- gap of at most one line: zero merge calls, table unchanged
    have hk0 : fileLine t n.pos - fileLine t c.endP - 1 = 0 := by omega
    have hit : (fun l => MergeLine l (fileLine t c.endP))^[0] t = t := rfl
    rw [squashStep_eq, hk0, hit]
    exact ⟨ht, List.Sublist.refl t, fun y hy hyn => absurd hy hyn,
      fun q _ => rfl, fun q _ => by omega, by omega⟩
  · -- real gap: k ≥ 1 merge calls at the fixed index fileLine t c.endP
    have h1 : 1 ≤ fileLine t c.endP := fileLine_ge_one t ht c.endP (by omega)
    obtain ⟨m_inv, m_sub, m_del, m_low, m_high⟩ :=
      merge_iterate c.endP n.pos (fileLine t n.pos - fileLine t c.endP - 1) t ht h1 (by omega)
    rw [squashStep_eq]
    refine ⟨m_inv, m_sub, m_del, m_low, fun q hq => m_high q hq, ?_⟩
    have e1 := m_low c.endP le_rfl
    have e2 := m_high n.pos le_rfl
    omega

theorem pairsOf_cons_cons (a b : Span) (l : List Span) :
    pairsOf (a :: b :: l) = (a, b) :: pairsOf (b :: l) := rfl

theorem memsOrdered_tail (m : Span) (ms : List Span) (h : memsOrdered (m :: ms)) :
    memsOrdered ms := by
  obtain ⟨hc, ha⟩ := h
  exact ⟨hc.tail, fun x hx => ha x (List.mem_cons_of_mem m hx)⟩

theorem headPos_le (m : Span) (ms : List Span) (h : memsOrdered (m :: ms)) :
    ∀ x ∈ m :: ms, m.pos ≤ x.pos := by
  induction ms generalizing m with
  | nil =>
    intro x hx
    rcases List.mem_cons.mp hx with rfl | hx
    · exact le_rfl
    · simp at hx
  | cons m1 rest ih =>
    intro x hx
    obtain ⟨hc, ha⟩ := h
    have hrel : m.endP ≤ m1.pos := (List.chain'_cons.mp hc).1
    have hm : m.pos ≤ m.endP := (ha m (List.mem_cons_self m _)).2
    rcases List.mem_cons.mp hx with rfl | hx
    · exact le_rfl
    · have htail : memsOrdered (m1 :: rest) :=
        memsOrdered_tail m (m1 :: rest) ⟨hc, ha⟩
      exact le_trans (le_trans hm hrel) (ih m1 htail x hx)

/-- Main fold lemma: what folding `squashStep` over the consecutive pairs of
an ordered member sequence does to a well-formed table — invariants are
preserved, only line-starts strictly between two members are deleted, line
numbers at or before the whole walk are untouched, every consecutive gap
ends up as the minimum of its original value and one line, and the per-pair
merge-call counts taken in the running table equal those taken in the
original table. -/
theorem fold_spec (ms : List Span) :
    ∀ (t : List Nat), tableInv t → memsOrdered ms →
    tableInv ((pairsOf ms).foldl squashStep t) ∧
    ((pairsOf ms).foldl squashStep t).Sublist t ∧
    (∀ y ∈ t, y ∉ (pairsOf ms).foldl squashStep t →
      ∃ m1, m1 ∈ ms ∧ ∃ m2, m2 ∈ ms ∧ m1.endP < y + 1 ∧ y + 1 ≤ m2.pos) ∧
    (∀ q, (∀ m ∈ ms, q ≤ m.pos) →
      fileLine ((pairsOf ms).foldl squashStep t) q = fileLine t q) ∧
    (∀ (i : Nat) (h1 : i < ms.length) (h2 : i + 1 < ms.length),
      fileLine ((pairsOf ms).foldl squashStep t) (ms.get ⟨i + 1, h2⟩).pos =
        fileLine ((pairsOf ms).foldl squashStep t) (ms.get ⟨i, h1⟩).endP +
          min (fileLine t (ms.get ⟨i + 1, h2⟩).pos - fileLine t (ms.get ⟨i, h1⟩).endP) 1) ∧
    pairCounts (pairsOf ms) t =
      (pairsOf ms).map (fun pr => fileLine t pr.2.pos - fileLine t pr.1.endP - 1) := by
  induction ms with
  | nil =>
    intro t ht _
    refine ⟨ht, List.Sublist.refl t, fun y hy hyn => absurd hy hyn,
      fun q _ => rfl, fun i h1 h2 => ?_, rfl⟩
    simp at h1
  | cons m0 ms0 ih =>
    cases ms0 with
    | nil =>
      intro t ht _
      refine ⟨ht, List.Sublist.refl t, fun y hy hyn => absurd hy hyn,
        fun q _ => rfl, fun i h1 h2 => ?_, rfl⟩
      simp at h2
    | cons m1 rest =>
      intro t ht hm
      have hrel : m0.endP ≤ m1.pos := (List.chain'_cons.mp hm.1).1
      have hm0 := hm.2 m0 (List.mem_cons_self m0 _)
      obtain ⟨s_inv, s_sub, s_del, s_low, s_shift, s_gap⟩ :=
        step_spec t m0 m1 ht hm0.1 hm0.2 hrel
      have hm1 : memsOrdered (m1 :: rest) := memsOrdered_tail m0 (m1 :: rest) hm
      obtain ⟨i_inv, i_sub, i_del, i_low, i_gap, i_counts⟩ :=
        ih (squashStep t (m0, m1)) s_inv hm1
      have hfold : (pairsOf (m0 :: m1 :: rest)).foldl squashStep t =
          (pairsOf (m1 :: rest)).foldl squashStep (squashStep t (m0, m1)) := by
        rw [pairsOf_cons_cons]
        rfl
      rw [hfold]
      -- positions of members of the tail are at or after m1.pos
      have hafter : ∀ x ∈ m1 :: rest, m1.pos ≤ x.pos := headPos_le m1 rest hm1
      refine ⟨i_inv, i_sub.trans s_sub, ?_, ?_, ?_, ?_⟩
      · -- erased line-starts lie strictly between two members
        intro y hy hyn
        by_cases hy1 : y ∈ squashStep t (m0, m1)
        · obtain ⟨a1, ha1, a2, ha2, hgt, hle2⟩ := i_del y hy1 hyn
          exact ⟨a1, List.mem_cons_of_mem m0 ha1, a2, List.mem_cons_of_mem m0 ha2, hgt, hle2⟩
        · obtain ⟨hgt, hle2⟩ := s_del y hy hy1
          exact ⟨m0, List.mem_cons_self m0 _, m1,
            List.mem_cons_of_mem m0 (List.mem_cons_self m1 _), hgt, hle2⟩
      · -- line numbers before the walk are untouched
        intro q hq
        have hq0 := hq m0 (List.mem_cons_self m0 _)
        rw [i_low q (fun m hmem => hq m (List.mem_cons_of_mem m0 hmem))]
        exact s_low q (le_trans hq0 hm0.2)
      · -- each consecutive gap collapses to min(original, 1)
        intro i h1 h2
        cases i with
        | zero =>
          have hq1 : ∀ m ∈ m1 :: rest, m1.pos ≤ m.pos := hafter
          have hq0 : ∀ m ∈ m1 :: rest, m0.endP ≤ m.pos :=
            fun m hmem => le_trans hrel (hafter m hmem)
          show fileLine ((pairsOf (m1 :: rest)).foldl squashStep (squashStep t (m0, m1)))
              m1.pos = fileLine ((pairsOf (m1 :: rest)).foldl squashStep
                (squashStep t (m0, m1))) m0.endP +
              min (fileLine t m1.pos - fileLine t m0.endP) 1
          rw [i_low m1.pos hq1, i_low m0.endP hq0]
          exact s_gap
        | succ i =>
          have h1t : i < (m1 :: rest).length := by simpa using h1
          have h2t : i + 1 < (m1 :: rest).length := by simpa using h2
          have hg := i_gap i h1t h2t
          have hmem1 : (m1 :: rest).get ⟨i, h1t⟩ ∈ m1 :: rest := List.get_mem _ _ _
          have hmem2 : (m1 :: rest).get ⟨i + 1, h2t⟩ ∈ m1 :: rest := List.get_mem _ _ _
          have hpe1 : m1.pos ≤ ((m1 :: rest).get ⟨i, h1t⟩).endP :=
            le_trans (hafter _ hmem1) (hm1.2 _ hmem1).2
          have hpe2 : m1.pos ≤ ((m1 :: rest).get ⟨i + 1, h2t⟩).pos := hafter _ hmem2
          have e1 := s_shift ((m1 :: rest).get ⟨i, h1t⟩).endP hpe1
          have e2 := s_shift ((m1 :: rest).get ⟨i + 1, h2t⟩).pos hpe2
          show fileLine ((pairsOf (m1 :: rest)).foldl squashStep (squashStep t (m0, m1)))
              ((m1 :: rest).get ⟨i + 1, h2t⟩).pos =
            fileLine ((pairsOf (m1 :: rest)).foldl squashStep (squashStep t (m0, m1)))
              ((m1 :: rest).get ⟨i, h1t⟩).endP +
              min (fileLine t ((m1 :: rest).get ⟨i + 1, h2t⟩).pos -
                fileLine t ((m1 :: rest).get ⟨i, h1t⟩).endP) 1
          omega
      · -- merge-call counts agree with the original-table gap sizes
        rw [pairsOf_cons_cons]
        show (fileLine t m1.pos - fileLine t m0.endP - 1) ::
            pairCounts (pairsOf (m1 :: rest)) (squashStep t (m0, m1)) =
          (fileLine t m1.pos - fileLine t m0.endP - 1) ::
            (pairsOf (m1 :: rest)).map
              (fun pr => fileLine t pr.2.pos - fileLine t pr.1.endP - 1)
        rw [i_counts]
        congr 1
        refine List.map_congr_left ?_
        intro pr hpr
        have hpr1 : pr.1 ∈ m1 :: rest := by
          have := List.of_mem_zip (a := pr.1) (b := pr.2) (by simpa using hpr)
          exact this.1
        have hpr2 : pr.2 ∈ m1 :: rest := by
          have := List.of_mem_zip (a := pr.1) (b := pr.2) (by simpa using hpr)
          exact List.mem_of_mem_tail this.2
        have hpe1 : m1.pos ≤ pr.1.endP :=
          le_trans (hafter _ hpr1) (hm1.2 _ hpr1).2
        have hpe2 : m1.pos ≤ pr.2.pos := hafter _ hpr2
        have e1 := s_shift pr.1.endP hpe1
        have e2 := s_shift pr.2.pos hpe2
        omega

/-- Folding `squashStep` over a pair list whose every gap is already at most
one line changes nothing. -/
theorem fold_noop (ms : List Span) :
    ∀ (t : List Nat),
      (∀ (i : Nat) (h1 : i < ms.length) (h2 : i + 1 < ms.length),
        fileLine t (ms.get ⟨i + 1, h2⟩).pos ≤ fileLine t (ms.get ⟨i, h1⟩).endP + 1) →
      (pairsOf ms).foldl squashStep t = t := by
  induction ms with
  | nil => intro t _; rfl
  | cons m0 ms0 ih =>
    cases ms0 with
    | nil => intro t _; rfl
    | cons m1 rest =>
      intro t hgap
      have h0 := hgap 0 (by simp) (by simp)
      have hstep : squashStep t (m0, m1) = t := by
        have hk0 : fileLine t m1.pos - fileLine t m0.endP - 1 = 0 := by
          simp only [List.get] at h0
          omega
        rw [squashStep_eq, hk0]
        rfl
      have hfold : (pairsOf (m0 :: m1 :: rest)).foldl squashStep t =
          (pairsOf (m1 :: rest)).foldl squashStep (squashStep t (m0, m1)) := by
        rw [pairsOf_cons_cons]
        rfl
      rw [hfold, hstep]
      refine ih t ?_
      intro i h1 h2
      exact hgap (i + 1) (by simpa using h1) (by simpa using h2)

theorem walkSeq_nil (imp cm : List Span) (fuel i j : Nat)
    (h : ¬ (i < imp.length ∨ j < cm.length)) :
    walkSeq imp cm fuel i j = [] := by
  cases fuel with
  | zero => rfl
  | succ fuel => rw [walkSeq, if_neg h]

theorem walkSeq_head (imp cm : List Span) (fuel i j : Nat)
    (h : i < imp.length ∨ j < cm.length) :
    ∃ tl, walkSeq imp cm (fuel + 1) i j = chooseNextNode imp cm i j :: tl := by
  rw [walkSeq, if_pos h]
  split_ifs <;> exact ⟨_, rfl⟩

/-- The pair list the squash loop processes is exactly the list of
consecutive pairs of the walked member sequence. -/
theorem walkPairs_eq_pairsOf (imp cm : List Span) :
    ∀ (fuel i j : Nat), i ≤ imp.length → j ≤ cm.length →
      imp.length - i + (cm.length - j) ≤ fuel →
      walkPairs imp cm fuel i j = pairsOf (walkSeq imp cm fuel i j) := by
  intro fuel
  induction fuel with
  | zero => intro i j hi hj hN; rfl
  | succ fuel ih =>
    intro i j hi hj hN
    by_cases hg : i < imp.length ∨ j < cm.length
    · rw [walkPairs, walkSeq, if_pos hg, if_pos hg]
      by_cases hs : chooseNextSide imp cm i j = Side.impSide
      · rw [if_pos hs, if_pos hs]
        have hilt : i < imp.length := side_imp_lt imp cm i j hs
        by_cases hend : i + 1 = imp.length ∧ j = cm.length
        · rw [if_pos hend]
          have hng2 : ¬ (i + 1 < imp.length ∨ j < cm.length) := by omega
          rw [walkSeq_nil imp cm fuel (i + 1) j hng2]
          rfl
        · rw [if_neg hend]
          have hg2 : i + 1 < imp.length ∨ j < cm.length := by omega
          obtain ⟨fuel2, rfl⟩ : ∃ f2, fuel = f2 + 1 := ⟨fuel - 1, by omega⟩
          obtain ⟨tl, htl⟩ := walkSeq_head imp cm fuel2 (i + 1) j hg2
          rw [ih (i + 1) j (by omega) hj (by omega), htl, pairsOf_cons_cons]
      · rw [if_neg hs, if_neg hs]
        have hjlt : j < cm.length := side_cm_lt imp cm i j (side_not_imp imp cm i j hs) hg
        by_cases hend : i = imp.length ∧ j + 1 = cm.length
        · rw [if_pos hend]
          have hng2 : ¬ (i < imp.length ∨ j + 1 < cm.length) := by omega
          rw [walkSeq_nil imp cm fuel i (j + 1) hng2]
          rfl
        · rw [if_neg hend]
          have hg2 : i < imp.length ∨ j + 1 < cm.length := by omega
          obtain ⟨fuel2, rfl⟩ : ∃ f2, fuel = f2 + 1 := ⟨fuel - 1, by omega⟩
          obtain ⟨tl, htl⟩ := walkSeq_head imp cm fuel2 i (j + 1) hg2
          rw [ih i (j + 1) hi (by omega) (by omega), htl, pairsOf_cons_cons]
    · rw [walkPairs, if_neg hg, walkSeq_nil imp cm (fuel + 1) i j hg]
      rfl

/-- The squash loop is the fold of `squashStep` over its pair list. -/
theorem squashLoop_eq_fold (imp cm : List Span) :
    ∀ (fuel i j : Nat) (t : List Nat), i ≤ imp.length → j ≤ cm.length →
      imp.length - i + (cm.length - j) ≤ fuel →
      squashLoop imp cm fuel i j t = (walkPairs imp cm fuel i j).foldl squashStep t := by
  intro fuel
  induction fuel with
  | zero => intro i j t hi hj hN; rfl
  | succ fuel ih =>
    intro i j t hi hj hN
    by_cases hg : i < imp.length ∨ j < cm.length
    · rw [squashLoop, walkPairs, if_pos hg, if_pos hg]
      by_cases hs : chooseNextSide imp cm i j = Side.impSide
      · rw [if_pos hs, if_pos hs]
        have hilt : i < imp.length := side_imp_lt imp cm i j hs
        by_cases hend : i + 1 = imp.length ∧ j = cm.length
        · rw [if_pos hend, if_pos hend]
          rfl
        · rw [if_neg hend, if_neg hend]
          rw [ih (i + 1) j _ (by omega) hj (by omega)]
          rfl
      · rw [if_neg hs, if_neg hs]
        have hjlt : j < cm.length := side_cm_lt imp cm i j (side_not_imp imp cm i j hs) hg
        by_cases hend : i = imp.length ∧ j + 1 = cm.length
        · rw [if_pos hend, if_pos hend]
          rfl
        · rw [if_neg hend, if_neg hend]
          rw [ih i (j + 1) _ hi (by omega) (by omega)]
          rfl
    · rw [squashLoop, if_neg hg, walkPairs, if_neg hg]
      rfl

/-- With at least two imports, `squashBlankImportLines` is the fold of the
per-pair merge step over the consecutive pairs of its member walk. -/
theorem squash_eq_fold (ps pe : Nat) (imp cm : List Span) (t : List Nat)
    (h2 : 2 ≤ imp.length) :
    squashBlankImportLines ps pe imp cm t =
      (pairsOf (squashMems ps pe imp cm)).foldl squashStep t := by
  unfold squashBlankImportLines squashMems
  rw [if_neg (by omega)]
  rw [squashLoop_eq_fold imp (resliceComments ps pe cm)
        (imp.length + (resliceComments ps pe cm).length) 0 0 t
        (by omega) (by omega) (by omega),
      walkPairs_eq_pairsOf imp (resliceComments ps pe cm)
        (imp.length + (resliceComments ps pe cm).length) 0 0
        (by omega) (by omega) (by omega)]

/-- Squashing an already-squashed table is a no-op: the core fixed-point /
idempotence property. -/
theorem squash_idem (ps pe : Nat) (imp cm : List Span) (t : List Nat)
    (ht : tableInv t) (hm : memsOrdered (squashMems ps pe imp cm)) :
    squashBlankImportLines ps pe imp cm (squashBlankImportLines ps pe imp cm t) =
      squashBlankImportLines ps pe imp cm t := by
  by_cases h2 : imp.length < 2
  · simp [squashBlankImportLines, if_pos h2]
  · have h2' : 2 ≤ imp.length := by omega
    rw [squash_eq_fold ps pe imp cm t h2', squash_eq_fold ps pe imp cm _ h2']
    obtain ⟨f_inv, f_sub, f_del, f_low, f_gap, f_counts⟩ :=
      fold_spec (squashMems ps pe imp cm) t ht hm
    refine fold_noop (squashMems ps pe imp cm) _ ?_
    intro i h1 h2
    have := f_gap i h1 h2
    omega

/-! ### resliceComments -/

theorem take_takeWhile_length {α : Type} (p : α → Bool) :
    ∀ (l : List α), l.take (l.takeWhile p).length = l.takeWhile p := by
  intro l
  induction l with
  | nil => rfl
  | cons a rest ih =>
    by_cases hp : p a
    · rw [List.takeWhile_cons, if_pos hp]
      simpa [List.take_succ_cons] using ih
    · rw [List.takeWhile_cons, if_neg hp]
      rfl

theorem chain_pos_le_iff (l : List Span) :
    chainB (fun (a b : Span) => decide (a.pos ≤ b.pos)) l = true ↔
      l.Chain' (fun a b => a.pos ≤ b.pos) := by
  rw [chainB_iff]
  constructor
  · exact List.Chain'.imp (fun a b hab => by simpa using hab)
  · exact List.Chain'.imp (fun a b hab => by simpa using hab)

instance (priority := 2000) (l : List Span) :
    Decidable (l.Chain' (fun a b => a.pos ≤ b.pos)) :=
  decidable_of_iff _ (chain_pos_le_iff l)

theorem chain_pos_le (c : Span) : ∀ (l : List Span),
    (c :: l).Chain' (fun a b => a.pos ≤ b.pos) → ∀ x ∈ l, c.pos ≤ x.pos := by
  intro l
  induction l generalizing c with
  | nil => intro _ x hx; simp at hx
  | cons d rest ih =>
    intro hc x hx
    have hcd : c.pos ≤ d.pos := (List.chain'_cons.mp hc).1
    rcases List.mem_cons.mp hx with rfl | hx
    · exact hcd
    · exact le_trans hcd (ih d (List.chain'_cons.mp hc).2 x hx)

theorem filter_eq_takeWhile (ps pe : Nat) : ∀ (l : List Span),
    l.Chain' (fun a b => a.pos ≤ b.pos) → (∀ x ∈ l, ps < x.pos) →
    l.filter (fun c => decide (ps < c.pos ∧ c.pos < pe)) =
      l.takeWhile (fun c => decide (c.pos < pe)) := by
  intro l
  induction l with
  | nil => intro _ _; rfl
  | cons c rest ih =>
    intro hc hlb
    have hlbc := hlb c (List.mem_cons_self c _)
    rw [List.filter_cons, List.takeWhile_cons]
    by_cases hlt : c.pos < pe
    · rw [if_pos (by simp [hlbc, hlt]), if_pos (by simp [hlt])]
      rw [ih hc.tail (fun x hx => hlb x (List.mem_cons_of_mem c hx))]
    · rw [if_neg (by simp [hlt]), if_neg (by simp [hlt])]
      refine List.filter_eq_nil_iff.mpr ?_
      intro x hx
      have := chain_pos_le c rest hc x hx
      simp only [decide_eq_true_eq]
      omega

/-- Once `cmLower` is set, the scan never changes it, and `cmUpper` ends as
the index of the last element of the remaining list whose position is below
`posEnd` (those elements form a prefix, the list being position-ascending). -/
theorem resliceLoop_found (ps pe : Nat) : ∀ (l : List Span) (i lo0 : Nat) (h0 : Option Nat),
    l.Chain' (fun a b => a.pos ≤ b.pos) →
    resliceLoop ps pe l i (some lo0) h0 =
      (some lo0,
        if (l.takeWhile (fun c => decide (c.pos < pe))).length = 0 then h0
        else some (i + (l.takeWhile (fun c => decide (c.pos < pe))).length - 1)) := by
  intro l
  induction l with
  | nil => intro i lo0 h0 _; simp [resliceLoop]
  | cons c rest ih =>
    intro i lo0 h0 hc
    rw [resliceLoop]
    simp only [reduceCtorEq, false_and, if_false, ne_eq, not_false_eq_true, true_and]
    rw [List.takeWhile_cons]
    by_cases hlt : c.pos < pe
    · rw [if_neg (show ¬ pe < c.pos by omega), if_pos hlt,
        if_pos (show decide (c.pos < pe) = true by simpa using hlt)]
      rw [ih (i + 1) lo0 (some i) hc.tail]
      simp only [List.length_cons]
      by_cases h0r : (rest.takeWhile (fun c => decide (c.pos < pe))).length = 0
      · rw [if_pos h0r, if_neg (show ¬ (rest.takeWhile
            (fun c => decide (c.pos < pe))).length + 1 = 0 by omega), h0r]
        have he : i + (0 + 1) - 1 = i := by omega
        rw [he]
      · rw [if_neg h0r, if_neg (show ¬ (rest.takeWhile
            (fun c => decide (c.pos < pe))).length + 1 = 0 by omega)]
        have he : i + 1 + (rest.takeWhile (fun c => decide (c.pos < pe))).length - 1 =
            i + ((rest.takeWhile (fun c => decide (c.pos < pe))).length + 1) - 1 := by omega
        rw [he]
    · rw [if_neg hlt, if_neg (show ¬ decide (c.pos < pe) = true by simpa using hlt)]
      simp only [List.length_nil, reduceIte]
      by_cases hbr : pe < c.pos
      · rw [if_pos hbr]
      · rw [if_neg hbr]
        rw [ih (i + 1) lo0 h0 hc.tail]
        have hrest : (rest.takeWhile (fun c => decide (c.pos < pe))).length = 0 := by
          cases rest with
          | nil => rfl
          | cons d rest2 =>
            have hcd : c.pos ≤ d.pos := (List.chain'_cons.mp hc).1
            rw [List.takeWhile_cons, if_neg (by simp; omega)]
            rfl
        rw [if_pos hrest]

/-- The whole scan, started in the searching state: either nothing qualifies
and both sentinels stay unset, or the loop reports the absolute index of the
first qualifying element and of the last element of the qualifying run. -/
theorem resliceLoop_search (ps pe : Nat) : ∀ (l : List Span),
    l.Chain' (fun a b => a.pos ≤ b.pos) → ∀ (i : Nat),
    (l.filter (fun c => decide (ps < c.pos ∧ c.pos < pe)) = [] ∧
      resliceLoop ps pe l i none none = (none, none)) ∨
    (∃ f L, l.filter (fun c => decide (ps < c.pos ∧ c.pos < pe)) =
        ((l.drop f).takeWhile (fun c => decide (c.pos < pe))) ∧
      L = ((l.drop f).takeWhile (fun c => decide (c.pos < pe))).length ∧ 1 ≤ L ∧
      resliceLoop ps pe l i none none = (some (i + f), some (i + f + L - 1))) := by
  intro l
  induction l with
  | nil => intro _ i; exact Or.inl ⟨rfl, rfl⟩
  | cons c rest ih =>
    intro hc i
    have hfc : (c :: rest).filter (fun c => decide (ps < c.pos ∧ c.pos < pe)) =
        if decide (ps < c.pos ∧ c.pos < pe) = true
        then c :: rest.filter (fun c => decide (ps < c.pos ∧ c.pos < pe))
        else rest.filter (fun c => decide (ps < c.pos ∧ c.pos < pe)) := by
      simp [List.filter_cons]
    by_cases hP : ps < c.pos ∧ c.pos < pe
    · -- found: switch to the found state at index i
      right
      have hloop1 : resliceLoop ps pe (c :: rest) i none none =
          resliceLoop ps pe rest (i + 1) (some i) (some i) := by
        rw [resliceLoop]
        have hnbr : ¬ pe < c.pos := by omega
        simp [hP.1, hP.2, hnbr]
      have hfil : (c :: rest).filter (fun c => decide (ps < c.pos ∧ c.pos < pe)) =
          ((c :: rest).drop 0).takeWhile (fun c => decide (c.pos < pe)) := by
        simp only [List.drop_zero]
        rw [hfc, if_pos (show decide (ps < c.pos ∧ c.pos < pe) = true by simpa using hP),
          List.takeWhile_cons, if_pos (show decide (c.pos < pe) = true by simpa using hP.2)]
        rw [filter_eq_takeWhile ps pe rest hc.tail ?_]
        intro x hx
        have := chain_pos_le c rest hc x hx
        omega
      refine ⟨0, ((c :: rest).takeWhile (fun c => decide (c.pos < pe))).length,
        by simpa using hfil, by simp, ?_, ?_⟩
      · rw [List.takeWhile_cons,
          if_pos (show decide (c.pos < pe) = true by simpa using hP.2)]
        simp
      · rw [hloop1, resliceLoop_found ps pe rest (i + 1) i (some i) hc.tail,
          List.takeWhile_cons,
          if_pos (show decide (c.pos < pe) = true by simpa using hP.2)]
        simp only [List.length_cons]
        by_cases h0r : (rest.takeWhile (fun c => decide (c.pos < pe))).length = 0
        · rw [if_pos h0r]
          simp only [Prod.mk.injEq, Option.some.injEq, h0r]
          omega
        · rw [if_neg h0r]
          simp only [Prod.mk.injEq, Option.some.injEq]
          omega
    · -- not yet found at this element
      rw [resliceLoop]
      rw [if_neg (show ¬ ((none : Option Nat) = none ∧ ps < c.pos ∧ c.pos < pe) by
        intro hcon; exact hP hcon.2)]
      simp only [ne_eq, not_true_eq_false, false_and, if_false]
      by_cases hbr : pe < c.pos
      · rw [if_pos hbr]
        left
        constructor
        · rw [hfc, if_neg (show ¬ decide (ps < c.pos ∧ c.pos < pe) = true by simpa using hP)]
          refine List.filter_eq_nil_iff.mpr ?_
          intro x hx
          have := chain_pos_le c rest hc x hx
          simp only [decide_eq_true_eq]
          omega
        · rfl
      · rw [if_neg hbr]
        rcases ih hc.tail (i + 1) with ⟨hfil, hloop⟩ | ⟨f, L, hfil, hL, hL1, hloop⟩
        · left
          refine ⟨?_, hloop⟩
          rw [hfc, if_neg (show ¬ decide (ps < c.pos ∧ c.pos < pe) = true by simpa using hP)]
          exact hfil
        · right
          refine ⟨f + 1, L, ?_, ?_, hL1, ?_⟩
          · rw [hfc, if_neg (show ¬ decide (ps < c.pos ∧ c.pos < pe) = true by simpa using hP)]
            simpa using hfil
          · simpa using hL
          · rw [hloop]
            simp only [Prod.mk.injEq, Option.some.injEq]
            omega

/-- `resliceComments` returns exactly the comments whose start position lies
strictly inside the bounds, in their original order. -/
theorem resliceComments_eq_filter (ps pe : Nat) (cm : List Span)
    (hs : cm.Chain' (fun a b => a.pos ≤ b.pos)) :
    resliceComments ps pe cm =
      cm.filter (fun c => decide (ps < c.pos ∧ c.pos < pe)) := by
  unfold resliceComments
  rcases resliceLoop_search ps pe cm hs 0 with ⟨hfil, hloop⟩ | ⟨f, L, hfil, hL, hL1, hloop⟩
  · rw [hloop]
    exact hfil.symm
  · rw [hloop]
    show (cm.drop (0 + f)).take ((some (0 + f + L - 1)).getD 0 + 1 - (0 + f)) = _
    have e1 : (some (0 + f + L - 1)).getD 0 + 1 - (0 + f) = L := by
      simp only [Option.getD_some]
      omega
    have e2 : 0 + f = f := by omega
    rw [e1, e2, hfil, hL]
    exact take_takeWhile_length _ (cm.drop f)

/-! ### findImportBounds, chooseNext and FileSet helpers -/

/-- If no `RPAREN` token ever appears, the scan loop can only exit through
the `"non-block import"` error — otherwise it runs the stream dry and, in
the Go original, loops forever on the scanner's endless `EOF`s. -/
theorem findLoop_no_rparen : ∀ (toks : List (Nat × Tok)) (found : Bool) (start : Nat),
    (∀ pt ∈ toks, pt.2 ≠ Tok.RPAREN) →
    findLoop toks found start = FindResult.nonBlockImport ∨
    findLoop toks found start = FindResult.noReturn := by
  intro toks
  induction toks with
  | nil => intro found start _; exact Or.inr rfl
  | cons pt rest ih =>
    obtain ⟨pos, tok⟩ := pt
    intro found start h
    have htok : tok ≠ Tok.RPAREN := h (pos, tok) (List.mem_cons_self _ _)
    have hrest : ∀ pt ∈ rest, pt.2 ≠ Tok.RPAREN :=
      fun pt hp => h pt (List.mem_cons_of_mem _ hp)
    rw [findLoop]
    by_cases hf : found = true
    · rw [if_pos hf]
      by_cases hs : tok = Tok.STRING ∧ start = 0
      · rw [if_pos hs]
        exact Or.inl rfl
      · rw [if_neg hs]
        by_cases hl : tok = Tok.LPAREN
        · rw [if_pos hl]
          exact ih found pos hrest
        · rw [if_neg hl, if_neg htok]
          exact ih found start hrest
    · rw [if_neg hf]
      exact ih _ start hrest

theorem chooseNextNode_mem (imp cm : List Span) (i j : Nat)
    (hg : i < imp.length ∨ j < cm.length) :
    chooseNextNode imp cm i j ∈ imp ∨ chooseNextNode imp cm i j ∈ cm := by
  unfold chooseNextNode
  cases hs : chooseNextSide imp cm i j with
  | impSide =>
    left
    have hlt := side_imp_lt imp cm i j hs
    show imp.getD i ⟨0, 0⟩ ∈ imp
    rw [List.getD_eq_getElem?_getD, List.getElem?_eq_getElem hlt, Option.getD_some]
    exact List.getElem_mem hlt
  | cmSide =>
    right
    have hlt := side_cm_lt imp cm i j hs hg
    show cm.getD j ⟨0, 0⟩ ∈ cm
    rw [List.getD_eq_getElem?_getD, List.getElem?_eq_getElem hlt, Option.getD_some]
    exact List.getElem_mem hlt

/-- Every member of a pair processed by the squash loop is one of the import
specs or one of the comment groups. -/
theorem walkPairs_mem (imp cm : List Span) :
    ∀ (fuel i j : Nat), i ≤ imp.length → j ≤ cm.length →
      ∀ pr ∈ walkPairs imp cm fuel i j,
        (pr.1 ∈ imp ∨ pr.1 ∈ cm) ∧ (pr.2 ∈ imp ∨ pr.2 ∈ cm) := by
  intro fuel
  induction fuel with
  | zero => intro i j hi hj pr hpr; simp [walkPairs] at hpr
  | succ fuel ih =>
    intro i j hi hj pr hpr
    rw [walkPairs] at hpr
    by_cases hg : i < imp.length ∨ j < cm.length
    · rw [if_pos hg] at hpr
      by_cases hs : chooseNextSide imp cm i j = Side.impSide
      · rw [if_pos hs] at hpr
        have hilt := side_imp_lt imp cm i j hs
        by_cases hend : i + 1 = imp.length ∧ j = cm.length
        · rw [if_pos hend] at hpr
          simp at hpr
        · rw [if_neg hend] at hpr
          rcases List.mem_cons.mp hpr with rfl | hpr2
          · exact ⟨chooseNextNode_mem imp cm i j hg,
              chooseNextNode_mem imp cm (i + 1) j (by omega)⟩
          · exact ih (i + 1) j (by omega) hj pr hpr2
      · rw [if_neg hs] at hpr
        have hjlt := side_cm_lt imp cm i j (side_not_imp imp cm i j hs) hg
        by_cases hend : i = imp.length ∧ j + 1 = cm.length
        · rw [if_pos hend] at hpr
          simp at hpr
        · rw [if_neg hend] at hpr
          rcases List.mem_cons.mp hpr with rfl | hpr2
          · exact ⟨chooseNextNode_mem imp cm i j hg,
              chooseNextNode_mem imp cm i (j + 1) (by omega)⟩
          · exact ih i (j + 1) hi (by omega) pr hpr2
    · rw [if_neg hg] at hpr
      simp at hpr

theorem fsetFile_singleton (f : FsFile) (p : Nat)
    (h1 : f.base ≤ p) (h2 : p ≤ f.base + f.size) :
    fsetFile [f] p = some f := by
  unfold fsetFile
  rw [List.find?_cons_of_pos _ (by simp [h1, h2])]

instance (t : List Nat) (n : Nat) : Decidable (mergeLineOK t n) :=
  inferInstanceAs (Decidable (1 ≤ n ∧ n < t.length))

/-! ### Claims -/

/-- Claim C1: for every pair of consecutive members (imports or filtered
comment groups) of the import-block walk whose gap satisfies
`startLine − endLine > 1` — `endLine` the line of the current member's end,
`startLine` the line of the next member's start — the squasher calls
`MergeLine(endLine)` exactly `startLine − endLine − 1` times (the
corresponding entry of `pairCounts`), and in the resulting table the two
members sit on adjacent lines: exactly 0 blank lines between them. -/
theorem c1_full_gap_collapse (ps pe : Nat) (imp cm : List Span) (t : List Nat)
    (ht : tableInv t) (h2 : 2 ≤ imp.length)
    (hm : memsOrdered (squashMems ps pe imp cm))
    (i : Nat) (h1 : i < (squashMems ps pe imp cm).length)
    (hi : i + 1 < (squashMems ps pe imp cm).length)
    (hgap : fileLine t ((squashMems ps pe imp cm).get ⟨i, h1⟩).endP + 1 <
      fileLine t ((squashMems ps pe imp cm).get ⟨i + 1, hi⟩).pos) :
    (pairCounts (pairsOf (squashMems ps pe imp cm)) t).getD i 0 + 1 =
      fileLine t ((squashMems ps pe imp cm).get ⟨i + 1, hi⟩).pos -
        fileLine t ((squashMems ps pe imp cm).get ⟨i, h1⟩).endP ∧
    fileLine (squashBlankImportLines ps pe imp cm t)
        ((squashMems ps pe imp cm).get ⟨i + 1, hi⟩).pos =
      fileLine (squashBlankImportLines ps pe imp cm t)
        ((squashMems ps pe imp cm).get ⟨i, h1⟩).endP + 1 := by
  obtain ⟨f_inv, f_sub, f_del, f_low, f_gap, f_counts⟩ :=
    fold_spec (squashMems ps pe imp cm) t ht hm
  constructor
  · have hplen : i < (pairsOf (squashMems ps pe imp cm)).length := by
      have hz : (pairsOf (squashMems ps pe imp cm)).length =
          min (squashMems ps pe imp cm).length ((squashMems ps pe imp cm).length - 1) := by
        simp [pairsOf]
      omega
    rw [f_counts, List.getD_eq_getElem?_getD,
      List.getElem?_eq_getElem (by simpa using hplen), Option.getD_some, List.getElem_map]
    have hpair : (pairsOf (squashMems ps pe imp cm))[i] =
        ((squashMems ps pe imp cm).get ⟨i, h1⟩,
          (squashMems ps pe imp cm).get ⟨i + 1, hi⟩) := by
      show ((squashMems ps pe imp cm).zip (squashMems ps pe imp cm).tail)[i] = _
      rw [List.getElem_zip, List.getElem_tail, List.get_eq_getElem, List.get_eq_getElem]
    rw [hpair]
    show fileLine t ((squashMems ps pe imp cm).get ⟨i + 1, hi⟩).pos -
        fileLine t ((squashMems ps pe imp cm).get ⟨i, h1⟩).endP - 1 + 1 = _
    omega
  · rw [squash_eq_fold ps pe imp cm t h2]
    have hg := f_gap i h1 hi
    omega

/-- Witness for C1: two imports separated by three blank lines
(lines 2–4 of the table `[0,10,11,12,13]`); the squasher performs
`5 − 1 − 1 = 3` merge calls and the output has the members on adjacent
lines. -/
theorem c1_witness :
    (pairCounts (pairsOf (squashMems 1 30 [⟨1, 10⟩, ⟨14, 20⟩] []))
        [0, 10, 11, 12, 13]).getD 0 0 + 1 =
      fileLine [0, 10, 11, 12, 13] 14 - fileLine [0, 10, 11, 12, 13] 10 ∧
    fileLine (squashBlankImportLines 1 30 [⟨1, 10⟩, ⟨14, 20⟩] [] [0, 10, 11, 12, 13]) 14 =
      fileLine (squashBlankImportLines 1 30 [⟨1, 10⟩, ⟨14, 20⟩] [] [0, 10, 11, 12, 13]) 10
        + 1 :=
  c1_full_gap_collapse 1 30 [⟨1, 10⟩, ⟨14, 20⟩] [] [0, 10, 11, 12, 13]
    (by decide) (by decide) (by decide) 0 (by decide) (by decide) (by decide)

/-- Claim C2 (counterexample): two imports separated by exactly one blank
line (table `[0,10,11]`: member ending on line 1, member starting on
line 3).  The claim says the blank line is preserved unchanged; the code
removes it — the output table is `[0,11]`, where the members sit on adjacent
lines (gap 1, no blank line), not on lines 1 and 3. -/
theorem c2_counterexample :
    fileLine [0, 10, 11] 12 = fileLine [0, 10, 11] 10 + 2 ∧
    squashBlankImportLines 1 25 [⟨1, 10⟩, ⟨12, 20⟩] [] [0, 10, 11] = [0, 11] ∧
    squashBlankImportLines 1 25 [⟨1, 10⟩, ⟨12, 20⟩] [] [0, 10, 11] ≠ [0, 10, 11] ∧
    fileLine (squashBlankImportLines 1 25 [⟨1, 10⟩, ⟨12, 20⟩] [] [0, 10, 11]) 12 =
      fileLine (squashBlankImportLines 1 25 [⟨1, 10⟩, ⟨12, 20⟩] [] [0, 10, 11]) 10 + 1 := by
  decide

/-- Claim C2 (amended): a single blank line between two consecutive members
is removed like any larger gap: when the input gap is exactly
`startLine − endLine = 2` (one blank line), the output places the two members
on adjacent lines, with zero blank lines between them.  (What the code
preserves is a gap of exactly one line, i.e. members already on adjacent
lines with no blank line.) -/
theorem c2_single_blank_removed (ps pe : Nat) (imp cm : List Span) (t : List Nat)
    (ht : tableInv t) (h2 : 2 ≤ imp.length)
    (hm : memsOrdered (squashMems ps pe imp cm))
    (i : Nat) (h1 : i < (squashMems ps pe imp cm).length)
    (hi : i + 1 < (squashMems ps pe imp cm).length)
    (hgap : fileLine t ((squashMems ps pe imp cm).get ⟨i + 1, hi⟩).pos =
      fileLine t ((squashMems ps pe imp cm).get ⟨i, h1⟩).endP + 2) :
    fileLine (squashBlankImportLines ps pe imp cm t)
        ((squashMems ps pe imp cm).get ⟨i + 1, hi⟩).pos =
      fileLine (squashBlankImportLines ps pe imp cm t)
        ((squashMems ps pe imp cm).get ⟨i, h1⟩).endP + 1 := by
  obtain ⟨f_inv, f_sub, f_del, f_low, f_gap, f_counts⟩ :=
    fold_spec (squashMems ps pe imp cm) t ht hm
  rw [squash_eq_fold ps pe imp cm t h2]
  have hg := f_gap i h1 hi
  omega

/-- Witness for the amended C2, on the counterexample's input. -/
theorem c2_witness :
    fileLine (squashBlankImportLines 1 25 [⟨1, 10⟩, ⟨12, 20⟩] [] [0, 10, 11]) 12 =
      fileLine (squashBlankImportLines 1 25 [⟨1, 10⟩, ⟨12, 20⟩] [] [0, 10, 11]) 10 + 1 :=
  c2_single_blank_removed 1 25 [⟨1, 10⟩, ⟨12, 20⟩] [] [0, 10, 11]
    (by decide) (by decide) (by decide) 0 (by decide) (by decide) (by decide)

/-- Claim C3: the transform is idempotent.  On a file that `formatCore`
processes successfully, re-running the whole post-parse pipeline (import
count check, `findImportBounds` over the unchanged token stream,
`resliceComments`, `squashBlankImportLines`) on the re-parsed output
(`reparseModel`, the spec-modelled external serialise/parse round trip)
returns the same result: the squashed table is a fixed point. -/
theorem c3_transform_idempotent (pf : ParsedFile) (s e : Nat)
    (ht : tableInv pf.lines) (h2 : 2 ≤ pf.imports.length)
    (hfind : findImportBounds pf.toks = FindResult.ok s e)
    (hm : memsOrdered (squashMems s e pf.imports pf.comments)) :
    formatCore (reparseModel pf
        (squashBlankImportLines s e pf.imports pf.comments pf.lines)) = formatCore pf ∧
    formatCore pf = some (Except.ok (),
      squashBlankImportLines s e pf.imports pf.comments pf.lines) := by
  have hrun : formatCore pf = some (Except.ok (),
      squashBlankImportLines s e pf.imports pf.comments pf.lines) := by
    unfold formatCore
    rw [if_neg (by omega), hfind]
  refine ⟨?_, hrun⟩
  rw [hrun]
  show formatCore ⟨pf.imports, pf.comments, pf.toks,
      squashBlankImportLines s e pf.imports pf.comments pf.lines⟩ = _
  unfold formatCore
  dsimp only
  rw [if_neg (by omega), hfind]
  show some (Except.ok (), squashBlankImportLines s e pf.imports pf.comments
      (squashBlankImportLines s e pf.imports pf.comments pf.lines)) = _
  rw [squash_idem s e pf.imports pf.comments pf.lines ht hm]

/-- Witness for C3: a two-import file; both runs return the squashed table
`[0,13]`. -/
theorem c3_witness :
    formatCore (reparseModel
        ⟨[⟨10, 15⟩, ⟨17, 22⟩], [], [(1, Tok.IMPORT), (8, Tok.LPAREN), (30, Tok.RPAREN)],
          [0, 9, 16, 23]⟩
        (squashBlankImportLines 8 30 [⟨10, 15⟩, ⟨17, 22⟩] [] [0, 9, 16, 23])) =
      formatCore ⟨[⟨10, 15⟩, ⟨17, 22⟩], [],
        [(1, Tok.IMPORT), (8, Tok.LPAREN), (30, Tok.RPAREN)], [0, 9, 16, 23]⟩ ∧
    formatCore ⟨[⟨10, 15⟩, ⟨17, 22⟩], [],
        [(1, Tok.IMPORT), (8, Tok.LPAREN), (30, Tok.RPAREN)], [0, 9, 16, 23]⟩ =
      some (Except.ok (),
        squashBlankImportLines 8 30 [⟨10, 15⟩, ⟨17, 22⟩] [] [0, 9, 16, 23]) :=
  c3_transform_idempotent
    ⟨[⟨10, 15⟩, ⟨17, 22⟩], [], [(1, Tok.IMPORT), (8, Tok.LPAREN), (30, Tok.RPAREN)],
      [0, 9, 16, 23]⟩ 8 30 (by decide) (by decide) (by decide) (by decide)

/-- Claim C4 (frame property): the squasher only deletes line boundaries
strictly inside the located block bounds.  The output table is a sublist of
the input table, and every line-start offset `y` whose position `y + 1` lies
at or before `posStart` or at or beyond `posEnd` survives unchanged — the
members themselves (the syntax tree) are never modified, `squash` returning
only a table.  Under the spec's external-Serializer contract (§6), unchanged
outside table entries and an unchanged tree give byte-identical output
outside the block. -/
theorem c4_frame_outside_block (ps pe : Nat) (imp cm : List Span) (t : List Nat)
    (ht : tableInv t) (hm : memsOrdered (squashMems ps pe imp cm))
    (hin : ∀ m ∈ squashMems ps pe imp cm, ps < m.pos ∧ m.pos < pe) :
    (squashBlankImportLines ps pe imp cm t).Sublist t ∧
    ∀ y ∈ t, (y + 1 ≤ ps ∨ pe ≤ y + 1) → y ∈ squashBlankImportLines ps pe imp cm t := by
  by_cases h2 : imp.length < 2
  · unfold squashBlankImportLines
    rw [if_pos h2]
    exact ⟨List.Sublist.refl t, fun y hy _ => hy⟩
  · have h2p : 2 ≤ imp.length := by omega
    rw [squash_eq_fold ps pe imp cm t h2p]
    obtain ⟨f_inv, f_sub, f_del, f_low, f_gap, f_counts⟩ :=
      fold_spec (squashMems ps pe imp cm) t ht hm
    refine ⟨f_sub, ?_⟩
    intro y hy hout
    by_contra hyn
    obtain ⟨m1, hmm1, m2, hmm2, hgt, hle⟩ := f_del y hy hyn
    have hb1 := hin m1 hmm1
    have hb2 := hin m2 hmm2
    have hpe1 := (hm.2 m1 hmm1).2
    omega

/-- Witness for C4 on the C1 example (block bounds 1 and 30): the outside
line-start 0 survives, and the output table is a sublist of the input. -/
theorem c4_witness :
    (squashBlankImportLines 1 30 [⟨2, 10⟩, ⟨14, 20⟩] [] [0, 10, 11, 12, 13]).Sublist
      [0, 10, 11, 12, 13] ∧
    0 ∈ squashBlankImportLines 1 30 [⟨2, 10⟩, ⟨14, 20⟩] [] [0, 10, 11, 12, 13] :=
  ⟨(c4_frame_outside_block 1 30 [⟨2, 10⟩, ⟨14, 20⟩] [] [0, 10, 11, 12, 13]
      (by decide) (by decide) (by decide)).1,
    (c4_frame_outside_block 1 30 [⟨2, 10⟩, ⟨14, 20⟩] [] [0, 10, 11, 12, 13]
      (by decide) (by decide) (by decide)).2 0 (by decide) (by decide)⟩

/-- Claim C5 (counterexample): a token stream that reaches end-of-stream
after `import` with an open-paren found but no close-paren.  The claim says
`findImportBounds` terminates with a malformed-block failure; in the code
there is no malformed-block error at all and the scan loop never tests for
`EOF` (which the Go scanner then returns forever), so the function never
returns — modelled by `FindResult.noReturn`, which is none of the
terminating outcomes. -/
theorem c5_counterexample :
    findImportBounds [(1, Tok.IMPORT), (8, Tok.LPAREN)] = FindResult.noReturn ∧
    FindResult.noReturn ≠ FindResult.nonBlockImport := by decide

/-- Claim C5 (amended): on every token stream containing no `RPAREN`, the
scan either exits with the `"non-block import"` error or runs the stream dry
and never returns (`noReturn`); there is no malformed-block failure. -/
theorem c5_no_rparen_never_returns (toks : List (Nat × Tok))
    (h : ∀ pt ∈ toks, pt.2 ≠ Tok.RPAREN) :
    findImportBounds toks = FindResult.nonBlockImport ∨
    findImportBounds toks = FindResult.noReturn :=
  findLoop_no_rparen toks false 0 h

/-- Witness for the amended C5 on the counterexample stream. -/
theorem c5_witness :
    findImportBounds [(1, Tok.IMPORT), (8, Tok.LPAREN)] = FindResult.nonBlockImport ∨
    findImportBounds [(1, Tok.IMPORT), (8, Tok.LPAREN)] = FindResult.noReturn :=
  c5_no_rparen_never_returns [(1, Tok.IMPORT), (8, Tok.LPAREN)] (by decide)

/-- Claim C6: given a position-ascending comment list and the block bounds,
`resliceComments` returns exactly the comments whose start position `p`
satisfies `posStart < p < posEnd` (boundary-exact positions excluded), in
their original order — the filter of the list, hence the maximal contiguous
qualifying run, empty when nothing qualifies, never reordered. -/
theorem c6_reslice_filter (posStart posEnd : Nat) (cm : List Span)
    (hs : cm.Chain' (fun a b => a.pos ≤ b.pos)) :
    resliceComments posStart posEnd cm =
      cm.filter (fun c => decide (posStart < c.pos ∧ c.pos < posEnd)) :=
  resliceComments_eq_filter posStart posEnd cm hs

/-- Witness for C6: bounds (5, 20); a comment before the block, two inside,
one exactly at the closing bound (excluded), one after. -/
theorem c6_witness :
    resliceComments 5 20 [⟨3, 4⟩, ⟨6, 8⟩, ⟨10, 12⟩, ⟨20, 22⟩, ⟨25, 30⟩] =
      [⟨6, 8⟩, ⟨10, 12⟩] :=
  c6_reslice_filter 5 20 [⟨3, 4⟩, ⟨6, 8⟩, ⟨10, 12⟩, ⟨20, 22⟩, ⟨25, 30⟩] (by decide)

/-- Claim C7: on a parse result with fewer than 2 imports, `formatCore`
fails with not-applicable before the block locator ever runs (no hypothesis
on the token stream is needed — the result holds even on streams where
`findImportBounds` would never return) and hands back the line table
unchanged; no output bytes are produced. -/
theorem c7_not_applicable (pf : ParsedFile) (h : pf.imports.length ≤ 1) :
    formatCore pf = some (Except.error Failure.notApplicable, pf.lines) := by
  unfold formatCore
  rw [if_pos h]

/-- Witness for C7: one import; the token stream is one on which the
locator would loop forever, yet the outcome is still not-applicable with the
table untouched. -/
theorem c7_witness :
    formatCore ⟨[⟨10, 15⟩], [], [(1, Tok.IMPORT)], [0, 9]⟩ =
      some (Except.error Failure.notApplicable, [0, 9]) :=
  c7_not_applicable ⟨[⟨10, 15⟩], [], [(1, Tok.IMPORT)], [0, 9]⟩ (by decide)

/-- Claim C8 (counterexample): `MergeLine` is not idempotent.  On the table
`[0,5,10,15]` both calls of `MergeLine · 1` are inside Go's valid (non-panic)
domain, yet applying it twice gives `[0,15]` while applying it once gives
`[0,10,15]` — the second call merges a further line boundary. -/
theorem c8_counterexample :
    mergeLineOK [0, 5, 10, 15] 1 ∧ mergeLineOK (MergeLine [0, 5, 10, 15] 1) 1 ∧
    MergeLine [0, 5, 10, 15] 1 = [0, 10, 15] ∧
    MergeLine (MergeLine [0, 5, 10, 15] 1) 1 = [0, 15] ∧
    MergeLine (MergeLine [0, 5, 10, 15] 1) 1 ≠ MergeLine [0, 5, 10, 15] 1 := by decide

/-- Claim C8 (amended): repeated `MergeLine(n)` calls compose rather than
repeat: whenever both calls are in the valid domain, the second call deletes
one more line-start entry, so the table differs from a single call's result
(this composition is exactly what the squash loop exploits by calling
`MergeLine(endLine)` `k` times). -/
theorem c8_mergeLine_not_idempotent (t : List Nat) (n : Nat)
    (hn1 : 1 ≤ n) (hn2 : n + 1 < t.length) :
    mergeLineOK t n ∧ mergeLineOK (MergeLine t n) n ∧
    (MergeLine (MergeLine t n) n).length + 2 = t.length ∧
    MergeLine (MergeLine t n) n ≠ MergeLine t n := by
  have hlen1 : (MergeLine t n).length = t.length - 1 := by
    show (t.eraseIdx n).length = t.length - 1
    exact List.length_eraseIdx_of_lt (by omega)
  have hlen2 : (MergeLine (MergeLine t n) n).length = t.length - 2 := by
    show ((MergeLine t n).eraseIdx n).length = t.length - 2
    rw [List.length_eraseIdx_of_lt (by omega), hlen1]
    omega
  refine ⟨⟨hn1, by omega⟩, ⟨hn1, by omega⟩, by omega, ?_⟩
  intro hcon
  have hc := congrArg List.length hcon
  rw [hlen1, hlen2] at hc
  omega

/-- Witness for the amended C8 on the counterexample's table. -/
theorem c8_witness :
    mergeLineOK [0, 5, 10, 15] 1 ∧ mergeLineOK (MergeLine [0, 5, 10, 15] 1) 1 ∧
    (MergeLine (MergeLine [0, 5, 10, 15] 1) 1).length + 2 = 4 ∧
    MergeLine (MergeLine [0, 5, 10, 15] 1) 1 ≠ MergeLine [0, 5, 10, 15] 1 :=
  c8_mergeLine_not_idempotent [0, 5, 10, 15] 1 (by decide) (by decide)

/-- Claim C9 (counterexample): with both cursors live and the head import
and head comment at the same position 5, `chooseNext` selects the comment
side and returns the comment node — not the import (Entry), as the claim
asserts: the strict `<` comparison fails on a tie and control falls to the
comment branch. -/
theorem c9_counterexample :
    chooseNextSide [⟨5, 9⟩] [⟨5, 7⟩] 0 0 = Side.cmSide ∧
    chooseNextSide [⟨5, 9⟩] [⟨5, 7⟩] 0 0 ≠ Side.impSide ∧
    chooseNextNode [⟨5, 9⟩] [⟨5, 7⟩] 0 0 = ⟨5, 7⟩ := by decide

/-- Claim C9 (amended): when neither cursor is exhausted and the two heads
have equal positions, `chooseNext` deterministically selects the
CommentBlock side; the Entry is chosen only when its position is strictly
smaller. -/
theorem c9_tie_prefers_comment (imp cm : List Span) (i j : Nat)
    (hi : i < imp.length) (hj : j < cm.length)
    (htie : (imp.getD i ⟨0, 0⟩).pos = (cm.getD j ⟨0, 0⟩).pos) :
    chooseNextSide imp cm i j = Side.cmSide := by
  unfold chooseNextSide
  rw [if_neg (by omega), if_neg (by omega), if_neg (by omega)]

/-- Witness for the amended C9 on the counterexample's cursors. -/
theorem c9_witness :
    chooseNextSide [⟨5, 9⟩] [⟨5, 7⟩] 0 0 = Side.cmSide :=
  c9_tie_prefers_comment [⟨5, 9⟩] [⟨5, 7⟩] 0 0 (by decide) (by decide) (by decide)

/-- Claim C10: under the single-file precondition — every import and comment
span lies inside the one registered file's position interval — both
`fset.File` lookups of every `(curr, next)` pair of the merge walk resolve to
that file, so the `currFile != nextFile` panic guard is unreachable. -/
theorem c10_no_panic (f : FsFile) (imp cm : List Span)
    (hcov : ∀ m ∈ imp ++ cm,
      f.base ≤ m.pos ∧ m.pos ≤ m.endP ∧ m.endP ≤ f.base + f.size) :
    ∀ pr ∈ walkPairs imp cm (imp.length + cm.length) 0 0,
      fsetFile [f] pr.1.endP = some f ∧ fsetFile [f] pr.2.pos = some f ∧
      fsetFile [f] pr.1.endP = fsetFile [f] pr.2.pos := by
  intro pr hpr
  obtain ⟨hm1, hm2⟩ := walkPairs_mem imp cm (imp.length + cm.length) 0 0
    (by omega) (by omega) pr hpr
  obtain ⟨hb1, hpe1, he1⟩ := hcov pr.1 (List.mem_append.mpr hm1)
  obtain ⟨hb2, hpe2, he2⟩ := hcov pr.2 (List.mem_append.mpr hm2)
  have r1 : fsetFile [f] pr.1.endP = some f :=
    fsetFile_singleton f pr.1.endP (by omega) (by omega)
  have r2 : fsetFile [f] pr.2.pos = some f :=
    fsetFile_singleton f pr.2.pos (by omega) (by omega)
  exact ⟨r1, r2, r1.trans r2.symm⟩

/-- Witness for C10: one file of base 1 and size 100; the walk of two
imports produces one pair, and both its position lookups yield that file. -/
theorem c10_witness :
    fsetFile [⟨1, 100⟩] 10 = some ⟨1, 100⟩ ∧ fsetFile [⟨1, 100⟩] 15 = some ⟨1, 100⟩ ∧
    fsetFile [⟨1, 100⟩] 10 = fsetFile [⟨1, 100⟩] 15 :=
  c10_no_panic ⟨1, 100⟩ [⟨5, 10⟩, ⟨15, 20⟩] [] (by decide)
    (⟨5, 10⟩, ⟨15, 20⟩) (by decide)

end StripBlank
